import Mathlib

/-!
Verification of the pacman-tourney repository core, shallowly embedded in Lean 4.

Sections:
1. Generic search engine (`src/pacai/student/search.py`).
2. GameState copy-on-write model (`src/pacai/core/state.py`).
3. Minimax / alpha-beta agents (`src/pacai/student/multiagents.py`).
4. Value iteration (`src/pacai/student/valueIterationAgent.py`).
5. Tabular Q-learning (`src/pacai/student/qlearningAgents.py`).

Machine integers are modelled as `Int`/`Nat` (Python ints are unbounded) and floats used
by the repository only for exact rational arithmetic are modelled as `Rat`.
-/

namespace PacaiSearch

variable {S A : Type}

/-- A search problem as consumed by `genericSearch`: `startingState`, `isGoal`, and
`successorStates` returning `(state, action, cost)` triples, mirroring the
`problem` interface used by `src/pacai/student/search.py`. -/
structure SProblem (S A : Type) where
  startingState : S
  isGoal : S → Bool
  successorStates : S → List (S × A × Int)

/-- Modelled from the spec: the frontier containers `pacai.util.stack.Stack`,
`pacai.util.queue.Queue`, `pacai.util.priorityQueue.PriorityQueue` are not under `src/`;
per the spec (section 4.2) the one generic algorithm is "parameterized by the frontier's
ordering discipline" (LIFO stack, FIFO queue, or cost-ordered priority queue).
Frontier entries are `(state, accumulatedCost)` pairs; priority-queue entries additionally
carry the pushed priority. -/
inductive DS (S : Type) where
  | stack (items : List (S × Int))
  | queue (items : List (S × Int))
  | pq (items : List ((S × Int) × Int))

/-- The three frontier disciplines (used to build an empty frontier). -/
inductive DSKind where
  | stack
  | queue
  | pq

/-- An empty frontier of the given discipline. -/
def DS.empty (S : Type) : DSKind → DS S
  | .stack => .stack []
  | .queue => .queue []
  | .pq => .pq []

/-- Push an entry; the `priority` argument is used only by the priority queue
(mirroring `dataStructure.push(item, priority)` vs `dataStructure.push(item)`). -/
def DS.push (ds : DS S) (e : S × Int) (priority : Int) : DS S :=
  match ds with
  | .stack items => .stack (e :: items)
  | .queue items => .queue (items ++ [e])
  | .pq items => .pq (items ++ [(e, priority)])

/-- Modelled from the spec: priority-queue pop removes the entry of least priority,
first-pushed among ties. -/
def pqPop : List ((S × Int) × Int) → Option (((S × Int) × Int) × List ((S × Int) × Int))
  | [] => none
  | (e, pr) :: rest =>
    match pqPop rest with
    | none => some ((e, pr), [])
    | some ((e', pr'), rest') =>
      if pr ≤ pr' then some ((e, pr), rest)
      else some ((e', pr'), (e, pr) :: rest')

/-- Pop an entry: LIFO for the stack, FIFO for the queue, least-priority for the pq. -/
def DS.pop : DS S → Option ((S × Int) × DS S)
  | .stack [] => none
  | .stack (e :: rest) => some (e, .stack rest)
  | .queue [] => none
  | .queue (e :: rest) => some (e, .queue rest)
  | .pq items =>
    match pqPop items with
    | none => none
    | some ((e, _), rest) => some (e, .pq rest)

/-- The `(state, cost)` entries currently held by the frontier. -/
def DS.entries : DS S → List (S × Int)
  | .stack items => items
  | .queue items => items
  | .pq items => items.map (fun x => x.1)

/-- The priority passed to `dataStructure.push` for a successor in `genericSearch`:
the Python source is `cost + (heuristic(successor[0], problem)) if heuristic else 0`,
which by Python conditional-expression precedence parses as
`(cost + heuristic(successor[0], problem)) if heuristic else 0`:
priority `cost + h` when a heuristic is supplied, priority `0` when it is absent. -/
def gsPushPriority (heuristic : Option (S → Int)) (cost : Int) (s : S) : Int :=
  match heuristic with
  | some h => cost + h s
  | none => 0

/-- Lookup in the back-pointer map `path : state → (predecessorState, actionTaken)`,
modelled as an association list (Python dict access `path[state]` / `state in path`). -/
def plookup [DecidableEq S] : List (S × (S × A)) → S → Option (S × A)
  | [], _ => none
  | (k, v) :: rest, s => if s = k then some v else plookup rest s

/-- The path-reconstruction loop of `genericSearch`
(`while state != problem.startingState(): state, action = path[state]; actions.append(action)`),
returning the action list in the backward order Python accumulates it.
The Python loop is unbounded; here it carries fuel (`none` models a `KeyError`
on `path[state]` or a loop that does not finish within the fuel).
`genericSearch` supplies fuel `path.length + 1`, which section-1 theorems prove sufficient
whenever the back-pointer invariant holds. -/
def reconAux [DecidableEq S] (start : S) : Nat → List (S × (S × A)) → S → Option (List A)
  | 0, _, _ => none
  | n + 1, path, state =>
    if state = start then some []
    else
      match plookup path state with
      | none => none
      | some (prev, act) => (reconAux start n path prev).map (fun l => act :: l)

/-- The successor loop of one expansion in `genericSearch`:
for each `(state, action, cost)` successor, push `(state, accumulatedCost)` with the
priority from `gsPushPriority`, and record a back-pointer if the state has none yet. -/
def gsExpand [DecidableEq S] (heuristic : Option (S → Int)) (state : S) (curr : Int) :
    List (S × A × Int) → DS S → List (S × (S × A)) → DS S × List (S × (S × A))
  | [], ds, path => (ds, path)
  | (t, act, c) :: rest, ds, path =>
    let cost := c + curr
    let ds' := ds.push (t, cost) (gsPushPriority heuristic cost t)
    let path' :=
      match plookup path t with
      | none => (t, (state, act)) :: path
      | some _ => path
    gsExpand heuristic state curr rest ds' path'

/-- Outcome of the embedded `genericSearch`:
`goalFound acts` is the `return actions[::-1]` exit, `noSolution` is the final `return []`
exit (frontier exhausted), `keyErr` is a failed `path[state]` lookup, and `fuelOut` marks
fuel exhaustion of the embedding (the Python loop has no such bound). -/
inductive GSResult (A : Type) where
  | goalFound (actions : List A)
  | noSolution
  | keyErr
  | fuelOut
deriving DecidableEq

/-- The main loop of `genericSearch` over `(frontier, path, visited)`, with fuel. -/
def gsLoop [DecidableEq S] (p : SProblem S A) (heuristic : Option (S → Int)) :
    Nat → DS S → List (S × (S × A)) → List S → GSResult A
  | 0, _, _, _ => .fuelOut
  | fuel + 1, ds, path, visited =>
    match ds.pop with
    | none => .noSolution
    | some ((state, curr), ds') =>
      if p.isGoal state then
        match reconAux p.startingState (path.length + 1) path state with
        | none => .keyErr
        | some acts => .goalFound acts.reverse
      else if state ∈ visited then
        gsLoop p heuristic fuel ds' path visited
      else
        let ep := gsExpand heuristic state curr (p.successorStates state) ds' path
        gsLoop p heuristic fuel ep.1 ep.2 (state :: visited)

/-- `genericSearch(problem, dataStructure, heuristic)`: push `(startingState, 0)`
(with priority `0` for a priority queue) and run the loop with empty path and visited. -/
def genericSearch [DecidableEq S] (p : SProblem S A) (k : DSKind)
    (heuristic : Option (S → Int)) (fuel : Nat) : GSResult A :=
  gsLoop p heuristic fuel ((DS.empty S k).push (p.startingState, 0) 0) [] []

lemma pqPop_mem {l : List ((S × Int) × Int)} {e : (S × Int) × Int}
    {rest : List ((S × Int) × Int)} (h : pqPop l = some (e, rest)) :
    e ∈ l ∧ ∀ x ∈ rest, x ∈ l := by
  induction l generalizing e rest with
  | nil => simp [pqPop] at h
  | cons hd tl ih =>
    obtain ⟨e₀, pr₀⟩ := hd
    rw [pqPop] at h
    cases h' : pqPop tl with
    | none =>
      rw [h'] at h
      simp only [Option.some.injEq, Prod.mk.injEq] at h
      obtain ⟨rfl, rfl⟩ := h
      exact ⟨List.mem_cons_self _ _, by simp⟩
    | some y =>
      obtain ⟨⟨e', pr'⟩, rest'⟩ := y
      rw [h'] at h
      have h : (if pr₀ ≤ pr' then some ((e₀, pr₀), tl)
          else some ((e', pr'), (e₀, pr₀) :: rest')) = some (e, rest) := h
      obtain ⟨hmem, hsub⟩ := ih h'
      by_cases hle : pr₀ ≤ pr'
      · rw [if_pos hle] at h
        simp only [Option.some.injEq, Prod.mk.injEq] at h
        obtain ⟨rfl, rfl⟩ := h
        exact ⟨List.mem_cons_self _ _, fun x hx => List.mem_cons_of_mem _ hx⟩
      · rw [if_neg hle] at h
        simp only [Option.some.injEq, Prod.mk.injEq] at h
        obtain ⟨rfl, rfl⟩ := h
        refine ⟨List.mem_cons_of_mem _ hmem, fun x hx => ?_⟩
        rcases List.mem_cons.mp hx with rfl | hx'
        · exact List.mem_cons_self _ _
        · exact List.mem_cons_of_mem _ (hsub x hx')

lemma pop_mem {ds ds' : DS S} {e : S × Int} (h : ds.pop = some (e, ds')) :
    e ∈ ds.entries ∧ ∀ x ∈ ds'.entries, x ∈ ds.entries := by
  cases ds with
  | stack items =>
    cases items with
    | nil => simp [DS.pop] at h
    | cons hd tl =>
      simp only [DS.pop, Option.some.injEq, Prod.mk.injEq] at h
      obtain ⟨rfl, rfl⟩ := h
      exact ⟨List.mem_cons_self _ _, fun x hx => List.mem_cons_of_mem _ hx⟩
  | queue items =>
    cases items with
    | nil => simp [DS.pop] at h
    | cons hd tl =>
      simp only [DS.pop, Option.some.injEq, Prod.mk.injEq] at h
      obtain ⟨rfl, rfl⟩ := h
      exact ⟨List.mem_cons_self _ _, fun x hx => List.mem_cons_of_mem _ hx⟩
  | pq items =>
    simp only [DS.pop] at h
    cases hq : pqPop items with
    | none => rw [hq] at h; simp at h
    | some y =>
      obtain ⟨⟨e₁, pr₁⟩, rest⟩ := y
      rw [hq] at h
      simp only [Option.some.injEq, Prod.mk.injEq] at h
      obtain ⟨rfl, rfl⟩ := h
      obtain ⟨hmem, hsub⟩ := pqPop_mem hq
      constructor
      · exact List.mem_map.mpr ⟨(e₁, pr₁), hmem, rfl⟩
      · intro x hx
        obtain ⟨y, hy, rfl⟩ := List.mem_map.mp hx
        exact List.mem_map.mpr ⟨y, hsub y hy, rfl⟩

lemma mem_entries_push {ds : DS S} {e x : S × Int} {pr : Int}
    (hx : x ∈ (ds.push e pr).entries) : x = e ∨ x ∈ ds.entries := by
  cases ds with
  | stack items => rcases List.mem_cons.mp hx with rfl | h <;> simp [DS.entries, *]
  | queue items =>
    rcases List.mem_append.mp hx with h | h
    · exact Or.inr h
    · simp at h; exact Or.inl h
  | pq items =>
    simp only [DS.push, DS.entries, List.map_append] at hx
    rcases List.mem_append.mp hx with h | h
    · exact Or.inr h
    · simp at h; exact Or.inl h

lemma recon_some_nil [DecidableEq S] {start : S} {n : Nat} {path : List (S × (S × A))}
    {u : S} {l : List A} (h : reconAux start n path u = some l) (hl : l = []) :
    u = start := by
  cases n with
  | zero => simp [reconAux] at h
  | succ m =>
    rw [reconAux] at h
    by_cases hu : u = start
    · exact hu
    · rw [if_neg hu] at h
      cases hp : plookup path u with
      | none => rw [hp] at h; simp at h
      | some v =>
        obtain ⟨prev, act⟩ := v
        rw [hp] at h
        have h : Option.map (fun l => act :: l) (reconAux start m path prev) = some l := h
        cases hr : reconAux start m path prev with
        | none => rw [hr] at h; simp at h
        | some l' =>
          rw [hr] at h
          simp only [Option.map_some', Option.some.injEq] at h
          subst hl
          simp at h

/-- Claim C3: the priority attached to every UCS frontier push is `0`, not the
accumulated cost: the Python conditional expression
`cost + (heuristic(successor[0], problem)) if heuristic else 0` binds as
`(cost + h) if heuristic else 0`, so with no heuristic the cost is discarded.
Here a successor reached with accumulated cost `1` is pushed with priority `0`. -/
theorem C3_ucs_push_priority_zero :
    gsPushPriority (S := Nat) none 1 0 = 0 ∧ gsPushPriority (S := Nat) none 1 0 ≠ 1 := by
  exact ⟨rfl, by decide⟩

lemma gsLoop_goalFound_nil [DecidableEq S] (p : SProblem S A) (heuristic : Option (S → Int)) :
    ∀ (fuel : Nat) (ds : DS S) (path : List (S × (S × A))) (visited : List S),
    gsLoop p heuristic fuel ds path visited = .goalFound [] →
    p.isGoal p.startingState = true := by
  intro fuel
  induction fuel with
  | zero => intro ds path visited h; simp [gsLoop] at h
  | succ m ih =>
    intro ds path visited h
    rw [gsLoop] at h
    cases hpop : ds.pop with
    | none => rw [hpop] at h; simp at h
    | some y =>
      obtain ⟨⟨state, curr⟩, ds'⟩ := y
      rw [hpop] at h
      dsimp only at h
      by_cases hg : p.isGoal state = true
      · rw [if_pos hg] at h
        cases hr : reconAux p.startingState (path.length + 1) path state with
        | none => rw [hr] at h; simp at h
        | some acts =>
          rw [hr] at h
          simp only [GSResult.goalFound.injEq] at h
          have hnil : acts = [] := by
            have := List.reverse_eq_nil_iff.mp h
            exact this
          have := recon_some_nil hr hnil
          rwa [this] at hg
      · rw [if_neg hg] at h
        by_cases hv : state ∈ visited
        · rw [if_pos hv] at h
          exact ih _ _ _ h
        · rw [if_neg hv] at h
          exact ih _ _ _ h

/-- Claim C8: the embedded `genericSearch` returns the empty action list without
raising exactly when the start state is itself a goal (then the very first pop — the
lone initial entry — exits through the goal branch, before any expansion, with the
reconstruction loop doing zero lookups) or when the frontier empties without a goal
being popped (the `noSolution` exit, which is the Python `return []` after the loop):
with any fuel ≥ 1, `goalFound []` occurs iff the start is a goal, and the
frontier-exhaustion exit can occur only when the start is not a goal. -/
theorem C8_empty_result_characterization [DecidableEq S]
    (p : SProblem S A) (k : DSKind) (heuristic : Option (S → Int)) (fuel : Nat)
    (hf : 1 ≤ fuel) :
    (genericSearch p k heuristic fuel = .goalFound [] ↔ p.isGoal p.startingState = true)
    ∧ (genericSearch p k heuristic fuel = .noSolution →
        p.isGoal p.startingState = false) := by
  have hstep : p.isGoal p.startingState = true →
      genericSearch p k heuristic fuel = .goalFound [] := by
    intro hg
    obtain ⟨m, rfl⟩ : ∃ m, fuel = m + 1 := ⟨fuel - 1, by omega⟩
    unfold genericSearch
    rw [gsLoop]
    have hpop : ((DS.empty S k).push (p.startingState, 0) 0).pop
        = some ((p.startingState, 0), DS.empty S k) := by
      cases k <;> simp [DS.empty, DS.push, DS.pop, pqPop]
    rw [hpop]
    dsimp only
    rw [if_pos hg]
    simp [reconAux]
  constructor
  · constructor
    · intro h
      exact gsLoop_goalFound_nil p heuristic fuel _ _ _ h
    · exact hstep
  · intro h
    cases hgs : p.isGoal p.startingState with
    | false => rfl
    | true =>
      rw [hstep hgs] at h
      simp at h

/-- A one-state problem whose start is its goal, for the C8 witness. -/
def trivialProblem : SProblem Nat Nat :=
  ⟨0, fun s => s == 0, fun _ => []⟩

/-- Witness for C8 at a concrete one-state problem whose start is its goal. -/
theorem C8_witness :
    (genericSearch trivialProblem DSKind.stack none 1 = GSResult.goalFound []
      ↔ trivialProblem.isGoal trivialProblem.startingState = true)
    ∧ (genericSearch trivialProblem DSKind.stack none 1 = GSResult.noSolution
      → trivialProblem.isGoal trivialProblem.startingState = false) :=
  C8_empty_result_characterization trivialProblem DSKind.stack none 1 (by decide)

/-- Back-pointer invariant of `genericSearch`: `rank` is a discovery order — every
path entry's key has positive rank bounded by the map size, and its predecessor is
either the start state or another key of strictly smaller rank. -/
def PInv [DecidableEq S] (start : S) (path : List (S × (S × A))) (rank : S → Nat) : Prop :=
  ∀ t p a, plookup path t = some (p, a) →
    (1 ≤ rank t ∧ rank t ≤ path.length) ∧
    (p = start ∨ ((plookup path p).isSome = true ∧ rank p < rank t))

/-- Every state held in the frontier is the start state or has a back-pointer entry. -/
def FrontierOk [DecidableEq S] (start : S) (path : List (S × (S × A))) (ds : DS S) : Prop :=
  ∀ e ∈ ds.entries, e.1 = start ∨ (plookup path e.1).isSome = true

lemma plookup_isSome_cons [DecidableEq S] {path : List (S × (S × A))} {u : S}
    (kv : S × (S × A)) (h : (plookup path u).isSome = true) :
    (plookup (kv :: path) u).isSome = true := by
  obtain ⟨k, v⟩ := kv
  simp only [plookup]
  split <;> simp [h]

lemma recon_succeeds [DecidableEq S] {start : S} :
    ∀ (n : Nat) (path : List (S × (S × A))) (rank : S → Nat), PInv start path rank →
    ∀ u, 1 ≤ n → (u = start ∨ ((plookup path u).isSome = true ∧ rank u < n)) →
    (reconAux start n path u).isSome = true := by
  intro n
  induction n with
  | zero => intro path rank _ u h1 _; omega
  | succ m ih =>
    intro path rank hinv u _ hu
    rw [reconAux]
    by_cases hus : u = start
    · simp [hus]
    · rcases hu with rfl | ⟨hsome, hrank⟩
      · exact absurd rfl hus
      obtain ⟨pa, hp⟩ := Option.isSome_iff_exists.mp hsome
      obtain ⟨p, a⟩ := pa
      obtain ⟨⟨hr1, _⟩, hptr⟩ := hinv u p a hp
      rw [if_neg hus, hp]
      have hrec : (reconAux start m path p).isSome = true := by
        rcases hptr with hpeq | ⟨hps, hpr⟩
        · rw [hpeq]
          exact ih path rank hinv start (by omega) (Or.inl rfl)
        · have h1p : 1 ≤ rank p := by
            obtain ⟨⟨p2, a2⟩, hp2⟩ := Option.isSome_iff_exists.mp hps
            exact (hinv p p2 a2 hp2).1.1
          exact ih path rank hinv p (by omega) (Or.inr ⟨hps, by omega⟩)
      obtain ⟨l, hl⟩ := Option.isSome_iff_exists.mp hrec
      show (Option.map (fun l => a :: l) (reconAux start m path p)).isSome = true
      rw [hl]
      rfl

lemma PInv_insert [DecidableEq S] {start : S} {path : List (S × (S × A))} {rank : S → Nat}
    (hinv : PInv start path rank) {t : S} (ht : plookup path t = none)
    {s : S} (hs : s = start ∨ (plookup path s).isSome = true) (act : A) :
    PInv start ((t, (s, act)) :: path)
      (fun x => if x = t then path.length + 1 else rank x) := by
  intro t' p' a' hl
  simp only [plookup] at hl
  by_cases h' : t' = t
  · rw [if_pos h'] at hl
    have h2 := Option.some.inj hl
    have hps : p' = s := (congrArg Prod.fst h2).symm
    constructor
    · simp only [if_pos h', List.length_cons]
      omega
    · rw [hps]
      rcases hs with hs1 | hss
      · exact Or.inl hs1
      · refine Or.inr ⟨plookup_isSome_cons _ hss, ?_⟩
        have hst : s ≠ t := by
          intro hst
          rw [hst, ht] at hss
          simp at hss
        obtain ⟨⟨p2, a2⟩, h2'⟩ := Option.isSome_iff_exists.mp hss
        have := (hinv s p2 a2 h2').1.2
        simp only [if_neg hst, if_pos h']
        omega
  · rw [if_neg h'] at hl
    obtain ⟨⟨hb1, hb2⟩, hptr⟩ := hinv t' p' a' hl
    constructor
    · simp only [if_neg h', List.length_cons]
      omega
    · rcases hptr with rfl | ⟨hps, hpr⟩
      · exact Or.inl rfl
      · refine Or.inr ⟨plookup_isSome_cons _ hps, ?_⟩
        have hpt : p' ≠ t := by
          intro hpt
          rw [hpt, ht] at hps
          simp at hps
        simp only [if_neg hpt, if_neg h']
        exact hpr

lemma expand_inv [DecidableEq S] {start : S} (heuristic : Option (S → Int))
    (s₀ : S) (curr : Int) :
    ∀ (succs : List (S × A × Int)) (ds : DS S) (path : List (S × (S × A))),
    (∃ rank, PInv start path rank) → FrontierOk start path ds →
    (s₀ = start ∨ (plookup path s₀).isSome = true) →
    (∃ rank, PInv start (gsExpand heuristic s₀ curr succs ds path).2 rank) ∧
    FrontierOk start (gsExpand heuristic s₀ curr succs ds path).2
      (gsExpand heuristic s₀ curr succs ds path).1 := by
  intro succs
  induction succs with
  | nil => intro ds path h1 h2 _; exact ⟨h1, h2⟩
  | cons hd tl ih =>
    obtain ⟨t, act, c⟩ := hd
    intro ds path hrank hf hs₀
    rw [gsExpand]
    cases hpt : plookup path t with
    | some v =>
      dsimp only
      refine ih _ _ hrank ?_ hs₀
      intro e he
      rcases mem_entries_push he with rfl | hold
      · exact Or.inr (by simp [hpt])
      · exact hf e hold
    | none =>
      dsimp only
      refine ih _ _ ?_ ?_ ?_
      · obtain ⟨rank, hinv⟩ := hrank
        exact ⟨_, PInv_insert hinv hpt hs₀ act⟩
      · intro e he
        rcases mem_entries_push he with rfl | hold
        · refine Or.inr ?_
          simp [plookup]
        · rcases hf e hold with h | h
          · exact Or.inl h
          · exact Or.inr (plookup_isSome_cons _ h)
      · rcases hs₀ with h | h
        · exact Or.inl h
        · exact Or.inr (plookup_isSome_cons _ h)

lemma gsLoop_ne_keyErr [DecidableEq S] (p : SProblem S A) (heuristic : Option (S → Int)) :
    ∀ (fuel : Nat) (ds : DS S) (path : List (S × (S × A))) (visited : List S),
    (∃ rank, PInv p.startingState path rank) →
    FrontierOk p.startingState path ds →
    gsLoop p heuristic fuel ds path visited ≠ .keyErr := by
  intro fuel
  induction fuel with
  | zero => intro ds path visited _ _; simp [gsLoop]
  | succ m ih =>
    intro ds path visited hrank hf
    rw [gsLoop]
    cases hpop : ds.pop with
    | none => simp
    | some y =>
      obtain ⟨⟨state, curr⟩, ds'⟩ := y
      dsimp only
      have hmem := pop_mem hpop
      have hstate : state = p.startingState ∨ (plookup path state).isSome = true :=
        hf _ hmem.1
      by_cases hg : p.isGoal state = true
      · rw [if_pos hg]
        obtain ⟨rank, hinv⟩ := hrank
        have hsucc : (reconAux p.startingState (path.length + 1) path state).isSome = true := by
          refine recon_succeeds (path.length + 1) path rank hinv state (by omega) ?_
          rcases hstate with h | h
          · exact Or.inl h
          · refine Or.inr ⟨h, ?_⟩
            obtain ⟨⟨p2, a2⟩, h2⟩ := Option.isSome_iff_exists.mp h
            have := (hinv state p2 a2 h2).1.2
            omega
        obtain ⟨acts, hacts⟩ := Option.isSome_iff_exists.mp hsucc
        rw [hacts]
        simp
      · rw [if_neg hg]
        have hf' : FrontierOk p.startingState path ds' :=
          fun e he => hf e (hmem.2 e he)
        by_cases hv : state ∈ visited
        · rw [if_pos hv]
          exact ih ds' path visited hrank hf'
        · rw [if_neg hv]
          obtain ⟨hrank', hf''⟩ := expand_inv heuristic state curr
            (p.successorStates state) ds' path hrank hf' hstate
          exact ih _ _ _ hrank' hf''

/-- Claim C10: whenever a popped state satisfies `isGoal`, path reconstruction walks
back-pointers to the start state without a failed lookup: every non-start state on the
chain has a path entry and the chain strictly decreases discovery rank, so the embedded
search can never exit through the `keyErr` (Python `KeyError`) path, for any problem,
frontier discipline, heuristic, and fuel. -/
theorem C10_reconstruction_never_fails [DecidableEq S] (p : SProblem S A) (k : DSKind)
    (heuristic : Option (S → Int)) (fuel : Nat) :
    genericSearch p k heuristic fuel ≠ .keyErr := by
  refine gsLoop_ne_keyErr p heuristic fuel _ [] [] ⟨fun _ => 0, ?_⟩ ?_
  · intro t q a h
    simp [plookup] at h
  · intro e he
    rcases mem_entries_push he with rfl | hold
    · exact Or.inl rfl
    · cases k <;> simp [DS.empty, DS.entries] at hold

end PacaiSearch

namespace PacaiState

/-- Board position `(x, y)`, a Python int pair. -/
abbrev Pos := Nat × Nat

/-- A boolean grid indexed `grid[x][y]` (the `pacai` Grid of food/wall indicators). -/
abbrev Grid := List (List Bool)

/-- Modelled from the spec: `pacai.core.game.AgentState` is not under `src/`; per the
spec (section 3) it is a value of position, facing direction, pacman/ghost role, and —
for prey-role agents — a scared-timer counting down turns of vulnerability; compared
and copied componentwise. -/
structure AgentState where
  position : Pos
  direction : Nat
  isPacman : Bool
  scaredTimer : Nat
deriving DecidableEq

/-- Modelled from the spec: the Layout collaborator (external, immutable) supplies the
wall grid, initial food grid, initial capsule list, and agent start positions. -/
structure Layout where
  walls : Grid
  food : Grid
  capsules : List Pos
  agentPositions : List (Bool × Pos)
deriving DecidableEq

/-- The heap of mutable Python container objects (food grids and capsule lists);
references into it are indices. Sharing a reference between two states is exactly
Python's aliasing of one list/grid object. -/
structure Heap where
  foods : List Grid
  caps : List (List Pos)
deriving DecidableEq

/-- Dereference a food-grid reference. -/
def Heap.getFoodGrid (h : Heap) (r : Nat) : Grid := h.foods.getD r []

/-- Dereference a capsule-list reference. -/
def Heap.getCaps (h : Heap) (r : Nat) : List Pos := h.caps.getD r []

/-- Allocate a new food-grid object (a `.copy()` in the source allocates). -/
def Heap.allocFood (h : Heap) (g : Grid) : Heap × Nat :=
  (⟨h.foods ++ [g], h.caps⟩, h.foods.length)

/-- Allocate a new capsule-list object. -/
def Heap.allocCaps (h : Heap) (c : List Pos) : Heap × Nat :=
  (⟨h.foods, h.caps ++ [c]⟩, h.caps.length)

/-- Overwrite the food-grid object at a reference (in-place mutation). -/
def Heap.setFoodGrid (h : Heap) (r : Nat) (g : Grid) : Heap := ⟨h.foods.set r g, h.caps⟩

/-- Overwrite the capsule-list object at a reference (in-place mutation). -/
def Heap.setCaps (h : Heap) (r : Nat) (c : List Pos) : Heap := ⟨h.foods, h.caps.set r c⟩

/-- Read `grid[x][y]`. -/
def gridGet (g : Grid) (x y : Nat) : Bool := (g.getD x []).getD y false

/-- Write `grid[x][y] = b`. -/
def gridSet (g : Grid) (x y : Nat) (b : Bool) : Grid := g.set x ((g.getD x []).set y b)

/-- The instance fields of `AbstractGameState` (`src/pacai/core/state.py`).
`foodRef`/`capsRef` are the `_food`/`_capsules` object references; `capsuleCopied` is
the misspelled attribute `_capsuleCopied` that `_initSuccessor` writes (the source's
`eatCapsule` reads `_capsulesCopied`, i.e. `capsulesCopied`). -/
structure GState where
  foodRef : Nat
  foodCopied : Bool
  lastFoodEaten : Option Pos
  capsRef : Nat
  capsulesCopied : Bool
  capsuleCopied : Bool
  lastCapsuleEaten : Option Pos
  agentStates : List AgentState
  score : Int
  gameover : Bool
  win : Bool
  lastAgentMoved : Option Nat
  layout : Layout
deriving DecidableEq

/-- `AbstractGameState.__init__(layout)`: copy the layout's food grid and capsule list
into fresh heap objects, mark both as not copied-on-write, build the agent states from
the layout's `(isPacman, position)` pairs with direction STOP (here `0`), score `0`.
(The misspelled `capsuleCopied` attribute is not written by `__init__`; its initial
value is immaterial because nothing ever reads it.) -/
def mkInitialState (h : Heap) (ly : Layout) : Heap × GState :=
  let fa := h.allocFood ly.food
  let ca := fa.1.allocCaps ly.capsules
  (ca.1,
   { foodRef := fa.2
     foodCopied := false
     lastFoodEaten := none
     capsRef := ca.2
     capsulesCopied := false
     capsuleCopied := false
     lastCapsuleEaten := none
     agentStates := ly.agentPositions.map (fun ip => ⟨ip.2, 0, ip.1, 0⟩)
     score := 0
     gameover := false
     win := false
     lastAgentMoved := none
     layout := ly })

/-- `AbstractGameState.hasCapsule(x, y)`: membership in the referenced capsule list. -/
def hasCapsule (h : Heap) (st : GState) (x y : Nat) : Bool :=
  decide ((x, y) ∈ h.getCaps st.capsRef)

/-- `AbstractGameState.hasFood(x, y)`: the referenced grid at `[x][y]`. -/
def hasFood (h : Heap) (st : GState) (x y : Nat) : Bool :=
  gridGet (h.getFoodGrid st.foodRef) x y

/-- `AbstractGameState.getNumFood()`: `self._food.count()`, the number of true cells. -/
def getNumFood (h : Heap) (st : GState) : Nat :=
  ((h.getFoodGrid st.foodRef).map (fun row => row.count true)).sum

/-- `AbstractGameState.getCapsules()`: `return self._capsules` — the internal list
object by reference (no copy). -/
def getCapsules (st : GState) : Nat := st.capsRef

/-- `AbstractGameState.getFood()`: `return self._food.copy()` — allocates a fresh grid
object holding a copy and returns the new reference. -/
def getFood (h : Heap) (st : GState) : Heap × Nat :=
  h.allocFood (h.getFoodGrid st.foodRef)

/-- `AbstractGameState.eatCapsule(x, y)`: no-op if no capsule there; otherwise clone
the shared list first if `_capsulesCopied` is unset, then remove `(x, y)` (Python
`list.remove` drops the first occurrence) and record `_lastCapsuleEaten`. -/
def eatCapsule (h : Heap) (st : GState) (x y : Nat) : Heap × GState :=
  if hasCapsule h st x y = false then (h, st)
  else
    let hs :=
      if st.capsulesCopied = false then
        let a := h.allocCaps (h.getCaps st.capsRef)
        (a.1, { st with capsRef := a.2, capsulesCopied := true })
      else (h, st)
    (hs.1.setCaps hs.2.capsRef ((hs.1.getCaps hs.2.capsRef).erase (x, y)),
     { hs.2 with lastCapsuleEaten := some (x, y) })

/-- `AbstractGameState.eatFood(x, y)`: no-op if no food there; otherwise clone the
shared grid first if `_foodCopied` is unset, then set `[x][y] = False` and record
`_lastFoodEaten`. -/
def eatFood (h : Heap) (st : GState) (x y : Nat) : Heap × GState :=
  if hasFood h st x y = false then (h, st)
  else
    let hs :=
      if st.foodCopied = false then
        let a := h.allocFood (h.getFoodGrid st.foodRef)
        (a.1, { st with foodRef := a.2, foodCopied := true })
      else (h, st)
    (hs.1.setFoodGrid hs.2.foodRef (gridSet (hs.1.getFoodGrid hs.2.foodRef) x y false),
     { hs.2 with lastFoodEaten := some (x, y) })

/-- `AbstractGameState._initSuccessor()`: `copy.copy(self)` (all fields including the
container references and `_capsulesCopied` are carried over), then
`successor._foodCopied = False` and `successor._capsuleCopied = False` — the second
assignment writes the misspelled attribute, so the real `_capsulesCopied` flag keeps
the parent's value. Agent states are value-copied (`agentState.copy()`), which in this
value model leaves the field unchanged. -/
def initSuccessor (st : GState) : GState :=
  { st with foodCopied := false, capsuleCopied := false }

/-- `AbstractGameState.__eq__`: compares score, gameover, win, then the capsule list
contents, food grid contents, agent states and layout. (The `other is None`, `type`,
and `self is other` short-circuits are omitted: in this value model they agree with
the field comparison.) -/
def eqState (h : Heap) (s1 s2 : GState) : Bool :=
  decide (s1.score = s2.score) && decide (s1.gameover = s2.gameover)
    && decide (s1.win = s2.win)
    && decide (h.getCaps s1.capsRef = h.getCaps s2.capsRef)
    && decide (h.getFoodGrid s1.foodRef = h.getFoodGrid s2.foodRef)
    && decide (s1.agentStates = s2.agentStates)
    && decide (s1.layout = s2.layout)

/-- `INITIAL_HASH_VALUE` from `src/pacai/core/state.py`. -/
def INITIAL_HASH_VALUE : Int := 17

/-- `HASH_MULTIPLIER` from `src/pacai/core/state.py`. -/
def HASH_MULTIPLIER : Int := 37

/-- Python `hash()` applied to a list object: lists are unhashable, so the call raises
`TypeError` unconditionally (modelled as `none`). Both hashed list fields of
`AbstractGameState` are lists: `_agentStates` is built with `append` in `__init__`
of this very file, and `_capsules` is `layout.capsules.copy()`, a list per
`getCapsules`'s docstring and the `remove` call in `eatCapsule`. -/
def pyHashOfList {γ : Type} (_ : List γ) : Option Int := none

/-- Python `hash` on a bool: `hash(False) = 0`, `hash(True) = 1`. -/
def pyHashBool (b : Bool) : Int := if b then 1 else 0

/-- `AbstractGameState.__hash__`: `17`, then `*37 + component` for score, gameover,
win, capsules, food, agent states, layout, in that order — with each `hash(...)` call
allowed to raise (`none` = `TypeError`), aborting the computation where Python would.
Hashing the `_capsules` and `_agentStates` lists raises (`pyHashOfList`); the hash
behavior of the Grid and Layout objects (classes not under `src/`) is left abstract. -/
def hashState (hFood : Grid → Option Int) (hLayout : Layout → Option Int)
    (h : Heap) (s : GState) : Option Int :=
  let v1 := INITIAL_HASH_VALUE * HASH_MULTIPLIER + s.score
  let v2 := v1 * HASH_MULTIPLIER + pyHashBool s.gameover
  let v3 := v2 * HASH_MULTIPLIER + pyHashBool s.win
  match pyHashOfList (h.getCaps s.capsRef) with
  | none => none
  | some hc =>
    let v4 := v3 * HASH_MULTIPLIER + hc
    match hFood (h.getFoodGrid s.foodRef) with
    | none => none
    | some hf =>
      let v5 := v4 * HASH_MULTIPLIER + hf
      match pyHashOfList s.agentStates with
      | none => none
      | some ha =>
        let v6 := v5 * HASH_MULTIPLIER + ha
        (hLayout s.layout).map (fun hl => v6 * HASH_MULTIPLIER + hl)

lemma listGetD_append_lt {α : Type} (d : α) :
    ∀ (l l' : List α) (i : Nat), i < l.length → (l ++ l').getD i d = l.getD i d := by
  intro l
  induction l with
  | nil => intro l' i h; simp at h
  | cons a t ih =>
    intro l' i h
    cases i with
    | zero => rfl
    | succ n =>
      simp only [List.cons_append, List.getD_cons_succ]
      exact ih l' n (by simpa using h)

lemma listGetD_append_self {α : Type} (d : α) :
    ∀ (l : List α) (g : α), (l ++ [g]).getD l.length d = g := by
  intro l
  induction l with
  | nil => intro g; rfl
  | cons a t ih =>
    intro g
    simp only [List.cons_append, List.length_cons, List.getD_cons_succ]
    exact ih g

lemma listGetD_set_ne {α : Type} (d : α) :
    ∀ (l : List α) (j i : Nat) (a : α), i ≠ j → (l.set j a).getD i d = l.getD i d := by
  intro l
  induction l with
  | nil => intro j i a _; rfl
  | cons hd tl ih =>
    intro j i a hij
    cases j with
    | zero =>
      cases i with
      | zero => exact absurd rfl hij
      | succ n => rfl
    | succ m =>
      cases i with
      | zero => rfl
      | succ n =>
        simp only [List.set_cons_succ, List.getD_cons_succ]
        exact ih m n a (by omega)

/-- The layout of the C1 scenario: one food cell and two capsules. -/
def exLayout : Layout :=
  { walls := [[true]], food := [[true]], capsules := [(0, 0), (1, 0)],
    agentPositions := [(true, (0, 0))] }

/-- Initial state construction for the C1 scenario. -/
def exInit : Heap × GState := mkInitialState ⟨[], []⟩ exLayout

/-- First successor eats the capsule at `(0, 0)` (this sets `_capsulesCopied`). -/
def exStep1 : Heap × GState := eatCapsule exInit.1 (initSuccessor exInit.2) 0 0

/-- A successor of that state eats the capsule at `(1, 0)`. -/
def exStep2 : Heap × GState := eatCapsule exStep1.1 (initSuccessor exStep1.2) 1 0

/-- Claim C1: copy-on-write isolation is broken for capsules. `_initSuccessor` writes
the misspelled attribute `_capsuleCopied` instead of `_capsulesCopied`, so a successor
inherits the parent's `_capsulesCopied` flag. Here the parent `exStep1.2` has eaten a
capsule (flag set); its successor's `eatCapsule` therefore skips the clone and removes
`(1, 0)` from the list object shared with the parent: the parent observed capsule
`(1, 0)` before its successor ate, and no longer does afterwards, contradicting the
claim that the parent's capsules are unchanged. (The food grid flag `_foodCopied` is
reset correctly, so the analogous food property does hold.) -/
theorem C1_capsule_cow_violation :
    hasCapsule exStep1.1 exStep1.2 1 0 = true
    ∧ hasCapsule exStep2.1 exStep1.2 1 0 = false
    ∧ (initSuccessor exStep1.2).capsulesCopied = true := by
  decide

/-- Claim C5: refuted by the code — `__hash__` never returns a hash at all. It
evaluates `hash(self._capsules)` (and would later evaluate `hash(self._agentStates)`);
both fields are Python lists, and `hash` on a list raises `TypeError` unconditionally,
so every `hash(state)` call raises — for every heap, state, and any hash behavior of
the Grid and Layout objects. Equality/hash consistency over the compared fields, and
using states as visited-set or transposition keys, is therefore impossible; the claim
describes the evident intent (`__eq__` and the hash formula read the same seven
fields), and the code is wrong. -/
theorem C5_hash_always_raises (hFood : Grid → Option Int)
    (hLayout : Layout → Option Int) (h : Heap) (s : GState) :
    hashState hFood hLayout h s = none :=
  rfl

/-- A small heap for the C9 witness. -/
def exHeapW : Heap := ⟨[[[true]]], [[(0, 0)]]⟩

/-- A state for the C9 witness. -/
def exStA : GState :=
  { foodRef := 0, foodCopied := false, lastFoodEaten := none, capsRef := 0,
    capsulesCopied := false, capsuleCopied := false, lastCapsuleEaten := none,
    agentStates := [], score := 3, gameover := false, win := false,
    lastAgentMoved := none, layout := ⟨[], [], [], []⟩ }

/-- Claim C9: `getFood` returns a freshly allocated copy — its reference differs from
the state's own, the copy's contents equal the state's grid, and overwriting the
returned object (with any grid) leaves the state's grid, `hasFood`, and `getNumFood`
unchanged — whereas `getCapsules` returns the state's internal capsule-list reference
itself. -/
theorem C9_getFood_copies_getCapsules_aliases (h : Heap) (st : GState)
    (hval : st.foodRef < h.foods.length) :
    (getFood h st).2 ≠ st.foodRef
    ∧ (getFood h st).1.getFoodGrid (getFood h st).2 = h.getFoodGrid st.foodRef
    ∧ (∀ g' : Grid,
        ((getFood h st).1.setFoodGrid (getFood h st).2 g').getFoodGrid st.foodRef
          = h.getFoodGrid st.foodRef)
    ∧ (∀ (g' : Grid) (x y : Nat),
        hasFood ((getFood h st).1.setFoodGrid (getFood h st).2 g') st x y
          = hasFood h st x y)
    ∧ (∀ g' : Grid,
        getNumFood ((getFood h st).1.setFoodGrid (getFood h st).2 g') st
          = getNumFood h st)
    ∧ getCapsules st = st.capsRef := by
  have hne : h.foods.length ≠ st.foodRef := by omega
  have hframe : ∀ g' : Grid,
      ((getFood h st).1.setFoodGrid (getFood h st).2 g').getFoodGrid st.foodRef
        = h.getFoodGrid st.foodRef := by
    intro g'
    show ((h.foods ++ [h.getFoodGrid st.foodRef]).set h.foods.length g').getD st.foodRef []
      = h.foods.getD st.foodRef []
    rw [listGetD_set_ne [] _ h.foods.length st.foodRef g' (by omega)]
    exact listGetD_append_lt [] h.foods _ st.foodRef hval
  refine ⟨?_, ?_, hframe, ?_, ?_, rfl⟩
  · show h.foods.length ≠ st.foodRef
    exact hne
  · show (h.foods ++ [h.getFoodGrid st.foodRef]).getD h.foods.length []
      = h.getFoodGrid st.foodRef
    exact listGetD_append_self [] h.foods _
  · intro g' x y
    unfold hasFood
    rw [hframe g']
  · intro g'
    unfold getNumFood
    rw [hframe g']

/-- Witness for C9 at a concrete heap and state. -/
theorem C9_witness :
    (getFood exHeapW exStA).2 ≠ exStA.foodRef
    ∧ (getFood exHeapW exStA).1.getFoodGrid (getFood exHeapW exStA).2
        = exHeapW.getFoodGrid exStA.foodRef
    ∧ (∀ g' : Grid,
        ((getFood exHeapW exStA).1.setFoodGrid (getFood exHeapW exStA).2 g').getFoodGrid
            exStA.foodRef
          = exHeapW.getFoodGrid exStA.foodRef)
    ∧ (∀ (g' : Grid) (x y : Nat),
        hasFood ((getFood exHeapW exStA).1.setFoodGrid (getFood exHeapW exStA).2 g')
            exStA x y
          = hasFood exHeapW exStA x y)
    ∧ (∀ g' : Grid,
        getNumFood ((getFood exHeapW exStA).1.setFoodGrid (getFood exHeapW exStA).2 g')
            exStA
          = getNumFood exHeapW exStA)
    ∧ getCapsules exStA = exStA.capsRef :=
  C9_getFood_copies_getCapsules_aliases exHeapW exStA (by decide)

end PacaiState

namespace PacaiVI

/-- The `pacai.core.mdp.MarkovDecisionProcess` interface as consumed by
`ValueIterationAgent`: enumerable states, per-state legal actions, transition
distribution `(nextState, probability)` list, and reward function. Probabilities,
rewards and values are Python floats, modelled as exact rationals. -/
structure MDP (S A : Type) where
  states : List S
  actions : S → List A
  transitions : S → A → List (S × Rat)
  reward : S → A → S → Rat

variable {S A : Type} [DecidableEq S]

/-- A Python dict of values with `.get(state, 0.0)` access. -/
def vlookup : List (S × Rat) → S → Rat
  | [], _ => 0
  | (k, v) :: rest, s => if s = k then v else vlookup rest s

/-- Python's `max` over a nonempty list: first element, then fold `max`.
(The `[]` case is unreachable in the embedded code, which guards on nonemptiness.) -/
def pymaxList : List Rat → Rat
  | [] => 0
  | x :: rest => rest.foldl max x

/-- `ValueIterationAgent.getValue(state)`: `self.values.get(state, 0.0)`. -/
def getValue (vals : List (S × Rat)) (s : S) : Rat := vlookup vals s

/-- `ValueIterationAgent.getQValue(state, action)`:
`sum([prob * (reward(s,a,s') + discountRate * getValue(s')) for s', prob in transitions])`. -/
def getQValue (m : MDP S A) (γ : Rat) (vals : List (S × Rat)) (s : S) (a : A) : Rat :=
  ((m.transitions s a).map
    (fun tp => tp.2 * (m.reward s a tp.1 + γ * getValue vals tp.1))).sum

/-- One sweep of the `__init__` iteration loop: a fresh `temp = {}` gets, for every
state with at least one legal action, `max` of the Q-values computed from the previous
table `vals`; states without legal actions receive no entry (so read back as `0.0`). -/
def sweep (m : MDP S A) (γ : Rat) (vals : List (S × Rat)) : List (S × Rat) :=
  m.states.filterMap (fun s =>
    if 0 < (m.actions s).length then
      some (s, pymaxList ((m.actions s).map (fun a => getQValue m γ vals s a)))
    else none)

/-- The value table after `ValueIterationAgent.__init__` runs `k` sweeps:
every state initialised to `0.0`, then `k` synchronous batch updates
(`self.values = temp` after each full sweep). -/
def runVI (m : MDP S A) (γ : Rat) : Nat → List (S × Rat)
  | 0 => m.states.map (fun s => (s, 0))
  | k + 1 => sweep m γ (runVI m γ k)

/-- Modelled from the spec: the synchronous value-iteration recurrence
`V_0(s) = 0`; `Q_k(s,a) = Σ_{s'} P(s'|s,a) · (R(s,a,s') + γ·V_k(s'))`;
`V_{k+1}(s) = max_a Q_k(s,a)` over legal actions, or `0` if there are none. -/
def specV (m : MDP S A) (γ : Rat) : Nat → S → Rat
  | 0, _ => 0
  | k + 1, s =>
    if 0 < (m.actions s).length then
      pymaxList ((m.actions s).map (fun a =>
        ((m.transitions s a).map
          (fun tp => tp.2 * (m.reward s a tp.1 + γ * specV m γ k tp.1))).sum))
    else 0

lemma vlookup_map_zero : ∀ (l : List S) (s : S), s ∈ l →
    vlookup (l.map (fun t => (t, (0 : Rat)))) s = 0 := by
  intro l
  induction l with
  | nil => intro s h; simp at h
  | cons hd tl ih =>
    intro s h
    simp only [List.map_cons, vlookup]
    by_cases hs : s = hd
    · rw [if_pos hs]
    · rw [if_neg hs]
      exact ih s (by rcases List.mem_cons.mp h with h1 | h1; exact absurd h1 hs; exact h1)

lemma vlookup_sweepf (m : MDP S A) (γ : Rat) (vals : List (S × Rat)) (s : S) :
    ∀ l : List S,
    (¬ 0 < (m.actions s).length ∨ s ∈ l) →
    vlookup (l.filterMap (fun t =>
        if 0 < (m.actions t).length then
          some (t, pymaxList ((m.actions t).map (fun a => getQValue m γ vals t a)))
        else none)) s =
      if 0 < (m.actions s).length then
        pymaxList ((m.actions s).map (fun a => getQValue m γ vals s a))
      else 0 := by
  intro l
  induction l with
  | nil =>
    intro hl
    rcases hl with hempty | hmem
    · rw [List.filterMap_nil, if_neg hempty]
      rfl
    · simp at hmem
  | cons hd tl ih =>
    intro hl
    rw [List.filterMap_cons]
    by_cases hhd : 0 < (m.actions hd).length
    · rw [if_pos hhd]
      show vlookup ((hd, _) :: _) s = _
      rw [vlookup]
      by_cases hs : s = hd
      · rw [if_pos hs, if_pos (hs ▸ hhd)]
        subst hs
        rfl
      · rw [if_neg hs]
        apply ih
        rcases hl with hempty | hmem
        · exact Or.inl hempty
        · rcases List.mem_cons.mp hmem with h1 | h1
          · exact absurd h1 hs
          · exact Or.inr h1
    · rw [if_neg hhd]
      apply ih
      rcases hl with hempty | hmem
      · exact Or.inl hempty
      · rcases List.mem_cons.mp hmem with h1 | h1
        · exact Or.inl (h1 ▸ hhd)
        · exact Or.inr h1

lemma vlookup_sweep_mem (m : MDP S A) (γ : Rat) (vals : List (S × Rat)) (s : S)
    (hmem : s ∈ m.states) :
    vlookup (sweep m γ vals) s =
      if 0 < (m.actions s).length then
        pymaxList ((m.actions s).map (fun a => getQValue m γ vals s a))
      else 0 :=
  vlookup_sweepf m γ vals s m.states (Or.inr hmem)

/-- Claim C6: batch value iteration is synchronous — after any number `k` of sweeps,
every MDP state's stored value equals the spec recurrence `specV k` computed entirely
from the previous sweep's table: `Q(s,a) = Σ_{s'} P·(R + γ·V)`, `V = max_a Q` over
legal actions, and `V = 0` at states with no legal actions. Transitions must stay
inside the state set (a well-formed MDP). -/
theorem C6_value_iteration_synchronous (m : MDP S A) (γ : Rat)
    (hclosed : ∀ s a s' p, (s', p) ∈ m.transitions s a → s' ∈ m.states) :
    ∀ (k : Nat) (s : S), s ∈ m.states → getValue (runVI m γ k) s = specV m γ k s := by
  intro k
  induction k with
  | zero =>
    intro s hs
    unfold runVI specV getValue
    exact vlookup_map_zero m.states s hs
  | succ n ih =>
    intro s hs
    show vlookup (sweep m γ (runVI m γ n)) s = specV m γ (n + 1) s
    rw [vlookup_sweep_mem m γ _ s hs]
    unfold specV
    by_cases hact : 0 < (m.actions s).length
    · rw [if_pos hact, if_pos hact]
      congr 1
      apply List.map_congr_left
      intro a _
      unfold getQValue
      congr 1
      apply List.map_congr_left
      intro tp htp
      have hmem' : tp.1 ∈ m.states := hclosed s a tp.1 tp.2 (by simpa using htp)
      rw [show getValue (runVI m γ n) tp.1 = specV m γ n tp.1 from ih tp.1 hmem']
    · rw [if_neg hact, if_neg hact]

/-- A two-state MDP for the C6 witness. -/
def exMDP : MDP Nat Nat :=
  { states := [0, 1]
    actions := fun s => if s = 0 then [0] else []
    transitions := fun _ _ => [(1, 1)]
    reward := fun _ _ _ => 1 }

/-- Witness for C6 on the concrete two-state MDP. -/
theorem C6_witness :
    getValue (runVI exMDP (1/2) 2) 0 = specV exMDP (1/2) 2 0 :=
  C6_value_iteration_synchronous exMDP (1/2)
    (by
      intro s a s' p h
      simp only [exMDP, List.mem_singleton] at h
      have : s' = 1 := by
        have := congrArg Prod.fst h
        simpa using this
      simp [exMDP, this])
    2 0 (by simp [exMDP])

end PacaiVI

namespace PacaiQL

variable {S A : Type} [DecidableEq S] [DecidableEq A]

/-- The state of a `QLearningAgent`: learning rate `alpha`, discount rate, the
environment's `getLegalActions` (from the `ReinforcementAgent` base, a parameter
here), and the sparse `self.qValues` dict keyed by `(state, action)`. -/
structure QAgent (S A : Type) where
  alpha : Rat
  discountRate : Rat
  legalActions : S → List A
  qValues : List ((S × A) × Rat)

/-- Python dict lookup on the Q-table. -/
def qlookup : List ((S × A) × Rat) → S × A → Option Rat
  | [], _ => none
  | (k, v) :: rest, key => if key = k then some v else qlookup rest key

/-- Python dict assignment `self.qValues[(state, action)] = v`. -/
def qset : List ((S × A) × Rat) → S × A → Rat → List ((S × A) × Rat)
  | [], key, v => [(key, v)]
  | (k, w) :: rest, key, v =>
    if key = k then (key, v) :: rest else (k, w) :: qset rest key v

/-- `QLearningAgent.getQValue`: `self.qValues.get((state, action), 0.0)`. -/
def getQValue (ag : QAgent S A) (s : S) (a : A) : Rat :=
  (qlookup ag.qValues (s, a)).getD 0

/-- The loop of `QLearningAgent.getValueActionPair`: `bestAction = (-float('inf'), None)`,
then for each action keep the pair when `val > bestAction[0]` (strict, first-seen
tie-break). The `-inf`/`None` start is the `none` accumulator; any finite value beats
it. -/
def bestPairLoop (ag : QAgent S A) (s : S) : List A → Option (Rat × A) → Option (Rat × A)
  | [], acc => acc
  | a :: rest, acc =>
    let val := getQValue ag s a
    let better :=
      match acc with
      | none => true
      | some (b, _) => decide (b < val)
    bestPairLoop ag s rest (if better then some (val, a) else acc)

/-- `QLearningAgent.getValueActionPair`: `(0.0, None)` when there are no legal actions,
else the loop's best `(value, action)` pair. -/
def getValueActionPair (ag : QAgent S A) (s : S) : Rat × Option A :=
  match ag.legalActions s with
  | [] => (0, none)
  | acts =>
    match bestPairLoop ag s acts none with
    | none => (0, none)
    | some (v, a) => (v, some a)

/-- `QLearningAgent.getValue`: first component of `getValueActionPair`. -/
def getValue (ag : QAgent S A) (s : S) : Rat := (getValueActionPair ag s).1

/-- `QLearningAgent.update(state, action, nextState, reward)`:
`Q(s,a) ← (1−α)·Q(s,a) + α·(reward + γ·getValue(nextState))`. -/
def update (ag : QAgent S A) (s : S) (a : A) (s' : S) (r : Rat) : QAgent S A :=
  { ag with
    qValues := qset ag.qValues (s, a)
      ((1 - ag.alpha) * getQValue ag s a
        + ag.alpha * (r + ag.discountRate * getValue ag s')) }

lemma qlookup_qset_self (q : List ((S × A) × Rat)) (key : S × A) (v : Rat) :
    qlookup (qset q key v) key = some v := by
  induction q with
  | nil => simp [qset, qlookup]
  | cons hd tl ih =>
    obtain ⟨k, w⟩ := hd
    rw [qset]
    by_cases hk : key = k
    · rw [if_pos hk, qlookup, if_pos rfl]
    · rw [if_neg hk, qlookup, if_neg hk]
      exact ih

lemma qlookup_qset_ne (q : List ((S × A) × Rat)) (key other : S × A) (v : Rat)
    (hne : other ≠ key) : qlookup (qset q key v) other = qlookup q other := by
  induction q with
  | nil => simp [qset, qlookup, if_neg hne]
  | cons hd tl ih =>
    obtain ⟨k, w⟩ := hd
    rw [qset]
    by_cases hk : key = k
    · subst hk
      rw [if_pos rfl, qlookup, qlookup, if_neg hne, if_neg hne]
    · rw [if_neg hk, qlookup, qlookup]
      by_cases ho : other = k
      · rw [if_pos ho, if_pos ho]
      · rw [if_neg ho, if_neg ho]
        exact ih

lemma bestPairLoop_val (ag : QAgent S A) (s : S) :
    ∀ (acts : List A) (v0 : Rat) (a0 : A),
    ∃ a1, bestPairLoop ag s acts (some (v0, a0)) =
      some (((acts.map (getQValue ag s)).foldl max v0), a1) := by
  intro acts
  induction acts with
  | nil => intro v0 a0; exact ⟨a0, rfl⟩
  | cons x rest ih =>
    intro v0 a0
    rw [bestPairLoop]
    dsimp only
    by_cases hlt : v0 < getQValue ag s x
    · rw [if_pos (decide_eq_true hlt)]
      obtain ⟨a1, h1⟩ := ih (getQValue ag s x) x
      refine ⟨a1, ?_⟩
      rw [h1]
      have hmax : max v0 (getQValue ag s x) = getQValue ag s x := max_eq_right (le_of_lt hlt)
      simp only [List.map_cons, List.foldl_cons, hmax]
    · rw [if_neg (by simpa using hlt)]
      obtain ⟨a1, h1⟩ := ih v0 a0
      refine ⟨a1, ?_⟩
      rw [h1]
      have hmax : max v0 (getQValue ag s x) = v0 := max_eq_left (not_lt.mp hlt)
      simp only [List.map_cons, List.foldl_cons, hmax]

lemma getValue_eq_max (ag : QAgent S A) (s : S) :
    getValue ag s =
      if ag.legalActions s = [] then 0
      else PacaiVI.pymaxList ((ag.legalActions s).map (getQValue ag s)) := by
  unfold getValue getValueActionPair
  cases hacts : ag.legalActions s with
  | nil => simp
  | cons x rest =>
    rw [if_neg (by simp)]
    have hstep : bestPairLoop ag s (x :: rest) none
        = bestPairLoop ag s rest (some (getQValue ag s x, x)) := rfl
    show (match bestPairLoop ag s (x :: rest) none with
      | none => ((0 : Rat), (none : Option A))
      | some (v, a) => (v, some a)).1
      = PacaiVI.pymaxList (List.map (getQValue ag s) (x :: rest))
    rw [hstep]
    obtain ⟨a1, h1⟩ := bestPairLoop_val ag s rest (getQValue ag s x) x
    rw [h1]
    simp [PacaiVI.pymaxList]

/-- Claim C7: tabular Q-learning — `getQValue` is `0` for every `(state, action)` pair
never written; an `update` on transition `(s, a, s', r)` stores exactly
`(1−α)·Q(s,a) + α·(r + γ·max over legal actions of Q(s',·))`, with the max term `0`
when `s'` has no legal actions; and no other table entry changes. -/
theorem C7_qlearning_update (ag : QAgent S A) (s : S) (a : A) (s' : S) (r : Rat) :
    (∀ (t : S) (b : A), qlookup ag.qValues (t, b) = none → getQValue ag t b = 0)
    ∧ getQValue (update ag s a s' r) s a
        = (1 - ag.alpha) * getQValue ag s a
          + ag.alpha * (r + ag.discountRate *
              (if ag.legalActions s' = [] then 0
               else PacaiVI.pymaxList ((ag.legalActions s').map (getQValue ag s'))))
    ∧ (∀ (t : S) (b : A), (t, b) ≠ (s, a) →
        getQValue (update ag s a s' r) t b = getQValue ag t b) := by
  refine ⟨?_, ?_, ?_⟩
  · intro t b hnone
    unfold getQValue
    rw [hnone]
    rfl
  · show (qlookup (qset ag.qValues (s, a) _) (s, a)).getD 0 = _
    rw [qlookup_qset_self]
    show (1 - ag.alpha) * getQValue ag s a
        + ag.alpha * (r + ag.discountRate * getValue ag s') = _
    rw [getValue_eq_max]
  · intro t b hne
    show (qlookup (qset ag.qValues (s, a) _) (t, b)).getD 0 = _
    rw [qlookup_qset_ne _ _ _ _ hne]
    rfl

/-- A concrete agent for the C7 witness. -/
def exAgent : QAgent Nat Nat :=
  { alpha := 1/2, discountRate := 1/3,
    legalActions := fun s => if s = 1 then [0, 1] else [],
    qValues := [((1, 0), 4), ((1, 1), 6)] }

/-- Witness for C7: one concrete update on `exAgent`, with all three conjuncts
instantiated (the unwritten pair `(0, 0)` reads `0`, the written entry matches the
update formula with max term `6`, and the untouched entry `(1, 1)` is unchanged). -/
theorem C7_witness :
    getQValue exAgent 0 0 = 0
    ∧ getQValue (update exAgent 0 0 1 5) 0 0
        = (1 - exAgent.alpha) * getQValue exAgent 0 0
          + exAgent.alpha * (5 + exAgent.discountRate *
              (if exAgent.legalActions 1 = [] then 0
               else PacaiVI.pymaxList ((exAgent.legalActions 1).map (getQValue exAgent 1))))
    ∧ getQValue (update exAgent 0 0 1 5) 1 1 = getQValue exAgent 1 1 := by
  have h := C7_qlearning_update exAgent 0 0 1 5
  exact ⟨h.1 0 0 (by decide), h.2.1, h.2.2 1 1 (by decide)⟩

end PacaiQL

namespace PacaiMulti

/-- The game-state interface consumed by the multi-agent search agents
(`getNumAgents`, `getLegalActions`, `generateSuccessor`, `isWin`, `isLose`) together
with the pluggable evaluation function. The interface contract `legalActions_ge`
records that an out-of-range agent index has no legal actions (in Python such an index
errors, producing no successors). -/
structure Game (S A : Type) where
  numAgents : Nat
  legalActions : S → Nat → List A
  generateSuccessor : S → Nat → A → S
  isWin : S → Bool
  isLose : S → Bool
  evalFn : S → Int
  legalActions_ge : ∀ s i, numAgents ≤ i → legalActions s i = []

/-- Search values: evaluation-function integers extended with `float('-inf')` (`⊥`)
and `float('inf')` (`⊤`). -/
abbrev EV := WithBot (WithTop Int)

variable {S A : Type}

/-- The evaluation function's value as a search value. -/
def evalEV (g : Game S A) (s : S) : EV := ((g.evalFn s : WithTop Int) : EV)

/-- `terminalNode(gameState, treeDepth)`: win, loss, or `treeDepth == 0`
(identical in `MinimaxAgent` and `AlphaBetaAgent`). -/
def terminalNode (g : Game S A) (s : S) (d : Nat) : Bool :=
  g.isWin s || g.isLose s || decide (d = 0)

lemma depth_pos_of_not_terminal {g : Game S A} {s : S} {d : Nat}
    (h : ¬ terminalNode g s d = true) : 0 < d := by
  unfold terminalNode at h
  simp only [Bool.or_eq_true, decide_eq_true_eq] at h
  omega

lemma agent_lt_of_mem {g : Game S A} {s : S} {i : Nat} {a : A}
    (ha : a ∈ g.legalActions s i) : i < g.numAgents := by
  by_contra hge
  rw [g.legalActions_ge s i (by omega)] at ha
  simp at ha

mutual
/-- `MinimaxAgent.maxValue` on its value-returning path (`treeDepth` below the root):
terminal test, then the loop `newV = minValue(successor, treeDepth); if newV > v: v = newV`
starting from `v = -inf`. (The root call returns `bestAction` instead; see `mmRoot`.) -/
def mmMax (g : Game S A) (s : S) (d : Nat) : EV :=
  if terminalNode g s d = true then evalEV g s
  else mmMaxLoop g d s ((g.legalActions s 0).attach) ⊥
termination_by (d, g.numAgents + 2, 0)

/-- The action loop of `MinimaxAgent.maxValue`. -/
def mmMaxLoop (g : Game S A) (d : Nat) (s : S)
    (l : List {a // a ∈ g.legalActions s 0}) (v : EV) : EV :=
  match l with
  | [] => v
  | a :: rest =>
    let newV := mmMin g (g.generateSuccessor s 0 a.1) d 1
    mmMaxLoop g d s rest (if v < newV then newV else v)
termination_by (d, g.numAgents + 1, l.length)
decreasing_by
  all_goals
    have hN : 0 < g.numAgents := agent_lt_of_mem a.2
    decreasing_tactic

/-- `MinimaxAgent.minValue`: terminal test; if the agent is the last index,
switch to the maximizer at `treeDepth - 1` on the same state (without this agent
moving); otherwise `v = min(v, minValue(successor, treeDepth, agentIndex + 1))`
over this agent's actions, starting from `v = inf`. -/
def mmMin (g : Game S A) (s : S) (d : Nat) (i : Nat) : EV :=
  if h : terminalNode g s d = true then evalEV g s
  else if i = g.numAgents - 1 then mmMax g s (d - 1)
  else mmMinLoop g d i s ((g.legalActions s i).attach) ⊤
termination_by (d, g.numAgents - i + 1, 0)
decreasing_by
  all_goals
    have hd : 0 < d := depth_pos_of_not_terminal h
    decreasing_tactic

/-- The action loop of `MinimaxAgent.minValue`. -/
def mmMinLoop (g : Game S A) (d i : Nat) (s : S)
    (l : List {a // a ∈ g.legalActions s i}) (v : EV) : EV :=
  match l with
  | [] => v
  | a :: rest =>
    mmMinLoop g d i s rest (min v (mmMin g (g.generateSuccessor s i a.1) d (i + 1)))
termination_by (d, g.numAgents - i, l.length)
decreasing_by
  all_goals
    have hiN : i < g.numAgents := agent_lt_of_mem a.2
    simp_wf
    first
      | (have h2 : g.numAgents - (i + 1) + 1 = g.numAgents - i := by omega
         rw [h2]
         exact Prod.Lex.right _ (Prod.Lex.right _ (by simp)))
      | exact Prod.Lex.right _ (Prod.Lex.right _ (by simp))
end

/-- The root action loop of `MinimaxAgent.maxValue` (`treeDepth == getTreeDepth()`):
track `v` and `bestAction`, updating on strict improvement (first-seen tie-break). -/
def mmRootLoop (g : Game S A) (rootd : Nat) (s : S) :
    List A → EV → Option A → EV × Option A
  | [], v, best => (v, best)
  | a :: rest, v, best =>
    let newV := mmMin g (g.generateSuccessor s 0 a) rootd 1
    if v < newV then mmRootLoop g rootd s rest newV (some a)
    else mmRootLoop g rootd s rest v best

/-- `MinimaxAgent.getAction`: the root `maxValue` call. At a terminal root it returns
the evaluation value (a number, `Sum.inl`); otherwise the tracked best action
(`Sum.inr`, `none` when there are no legal root actions). -/
def mmRoot (g : Game S A) (s : S) (rootd : Nat) : Sum EV (Option A) :=
  if terminalNode g s rootd = true then Sum.inl (evalEV g s)
  else Sum.inr (mmRootLoop g rootd s (g.legalActions s 0) ⊥ none).2

mutual
/-- `AlphaBetaAgent.maxValue`: as minimax but `v = max(v, minValue(...))`, early
`return v` when `v >= beta`, then `alpha = max(alpha, v)`. -/
def abMax (g : Game S A) (s : S) (d : Nat) (α β : EV) : EV :=
  if terminalNode g s d = true then evalEV g s
  else abMaxLoop g d s β ((g.legalActions s 0).attach) ⊥ α
termination_by (d, g.numAgents + 2, 0)

/-- The action loop of `AlphaBetaAgent.maxValue`. -/
def abMaxLoop (g : Game S A) (d : Nat) (s : S) (β : EV)
    (l : List {a // a ∈ g.legalActions s 0}) (v α : EV) : EV :=
  match l with
  | [] => v
  | a :: rest =>
    let v' := max v (abMin g (g.generateSuccessor s 0 a.1) d α β 1)
    if β ≤ v' then v'
    else abMaxLoop g d s β rest v' (max α v')
termination_by (d, g.numAgents + 1, l.length)
decreasing_by
  all_goals
    have hN : 0 < g.numAgents := agent_lt_of_mem a.2
    decreasing_tactic

/-- `AlphaBetaAgent.minValue`: as minimax but with early `return v` when
`v <= alpha`, then `beta = min(beta, v)`. -/
def abMin (g : Game S A) (s : S) (d : Nat) (α β : EV) (i : Nat) : EV :=
  if h : terminalNode g s d = true then evalEV g s
  else if i = g.numAgents - 1 then abMax g s (d - 1) α β
  else abMinLoop g d i s α ((g.legalActions s i).attach) ⊤ β
termination_by (d, g.numAgents - i + 1, 0)
decreasing_by
  all_goals
    have hd : 0 < d := depth_pos_of_not_terminal h
    decreasing_tactic

/-- The action loop of `AlphaBetaAgent.minValue`. -/
def abMinLoop (g : Game S A) (d i : Nat) (s : S) (α : EV)
    (l : List {a // a ∈ g.legalActions s i}) (v β : EV) : EV :=
  match l with
  | [] => v
  | a :: rest =>
    let v' := min v (abMin g (g.generateSuccessor s i a.1) d α β (i + 1))
    if v' ≤ α then v'
    else abMinLoop g d i s α rest v' (min β v')
termination_by (d, g.numAgents - i, l.length)
decreasing_by
  all_goals
    have hiN : i < g.numAgents := agent_lt_of_mem a.2
    simp_wf
    first
      | (have h2 : g.numAgents - (i + 1) + 1 = g.numAgents - i := by omega
         rw [h2]
         exact Prod.Lex.right _ (Prod.Lex.right _ (by simp)))
      | exact Prod.Lex.right _ (Prod.Lex.right _ (by simp))
end

/-- The root loop of `AlphaBetaAgent.alphaBeta`: `newV = minValue(succ, d, alpha, inf)`;
on strict improvement update `v` and `bestAction`; then `alpha = max(alpha, v)`. -/
def abRootLoop (g : Game S A) (rootd : Nat) (s : S) :
    List A → EV → EV → Option A → EV × Option A
  | [], v, _, best => (v, best)
  | a :: rest, v, α, best =>
    let newV := abMin g (g.generateSuccessor s 0 a) rootd α ⊤ 1
    if v < newV then abRootLoop g rootd s rest newV (max α newV) (some a)
    else abRootLoop g rootd s rest v (max α v) best

/-- `AlphaBetaAgent.getAction`: terminal root returns the evaluation value, else the
tracked best action, starting from `v = alpha = -inf`, `beta = inf`. -/
def abRoot (g : Game S A) (s : S) (rootd : Nat) : Sum EV (Option A) :=
  if terminalNode g s rootd = true then Sum.inl (evalEV g s)
  else Sum.inr (abRootLoop g rootd s (g.legalActions s 0) ⊥ ⊥ none).2

/-- Modelled from the spec: round-based minimax per the spec's turn-order sentence —
agent 0 maximizes, every agent `1..N-1` is evaluated as a minimizer in index order over
its own legal actions, and the remaining depth decrements exactly once per full round,
after the last agent in the round acts. -/
def specMM (g : Game S A) (s : S) (d : Nat) (i : Nat) : EV :=
  if h : terminalNode g s d = true then evalEV g s
  else
    let child := fun (a : {a // a ∈ g.legalActions s i}) =>
      if i + 1 = g.numAgents then specMM g (g.generateSuccessor s i a.1) (d - 1) 0
      else specMM g (g.generateSuccessor s i a.1) d (i + 1)
    if i = 0 then (((g.legalActions s i).attach).map child).foldl max ⊥
    else (((g.legalActions s i).attach).map child).foldl min ⊤
termination_by (d, g.numAgents - i)
decreasing_by
  all_goals
    first
      | (have hd : 0 < d := depth_pos_of_not_terminal h
         decreasing_tactic)
      | (have hiN : i < g.numAgents := agent_lt_of_mem a.2
         decreasing_tactic)

/-- A two-agent game exercising C2: from state `0` pacman's only move reaches state
`1` (evaluation `5`); there the ghost's only move reaches state `2` (evaluation
`-100`). Nothing is a win or loss. -/
def exG2 : Game Nat Nat :=
  { numAgents := 2
    legalActions := fun s i =>
      if s = 0 ∧ i = 0 then [10] else if s = 1 ∧ i = 1 then [20] else []
    generateSuccessor := fun s _ _ => if s = 0 then 1 else 2
    isWin := fun _ => false
    isLose := fun _ => false
    evalFn := fun s => if s = 1 then 5 else if s = 2 then (-100) else 0
    legalActions_ge := by
      intro s i h
      have h0 : ¬ (i = 0) := by omega
      have h1 : ¬ (i = 1) := by omega
      simp [h0, h1] }

/-- Claim C2: the minimax agent does not evaluate the last agent of the round.
`minValue` checks `agentIndex == numAgents - 1` before that agent acts and jumps to
`maxValue(state, depth - 1)` on the same state, so the last minimizer's legal actions
never generate successors and the depth decrements before (not after) the last agent
would act. On `exG2` at depth 1 the code's value is the evaluation of state `1` (ghost
never moves, value `5`), while the spec's round-based minimax lets the ghost reply and
yields `-100`. -/
theorem C2_last_agent_skipped :
    mmMax exG2 0 1 = evalEV exG2 1
    ∧ specMM exG2 0 1 0 = evalEV exG2 2
    ∧ mmMax exG2 0 1 ≠ specMM exG2 0 1 0 := by
  have hterm01 : terminalNode exG2 0 1 = false := by decide
  have hterm11 : terminalNode exG2 1 1 = false := by decide
  have hterm10 : terminalNode exG2 1 0 = true := by decide
  have hterm20 : terminalNode exG2 2 0 = true := by decide
  have hatt0 : (exG2.legalActions 0 0).attach = [⟨10, by decide⟩] := rfl
  have hatt1 : (exG2.legalActions 1 1).attach = [⟨20, by decide⟩] := rfl
  have hsucc0 : exG2.generateSuccessor 0 0 10 = 1 := rfl
  have hsucc1 : exG2.generateSuccessor 1 1 20 = 2 := rfl
  have hmmin : mmMin exG2 1 1 1 = evalEV exG2 1 := by
    rw [mmMin, dif_neg (by simp [hterm11]),
      if_pos (show 1 = exG2.numAgents - 1 from by decide), mmMax,
      if_pos (show terminalNode exG2 1 (1 - 1) = true from by decide)]
  have hcode : mmMax exG2 0 1 = evalEV exG2 1 := by
    rw [mmMax, if_neg (by simp [hterm01]), hatt0, mmMaxLoop]
    dsimp only
    rw [hsucc0, hmmin, mmMaxLoop]
    decide
  have hspec2 : specMM exG2 2 0 0 = evalEV exG2 2 := by
    rw [specMM, dif_pos hterm20]
  have hspec1 : specMM exG2 1 1 1 = evalEV exG2 2 := by
    rw [specMM, dif_neg (by simp [hterm11])]
    dsimp only
    rw [hatt1]
    simp only [List.map_cons, List.map_nil]
    rw [if_pos (show 1 + 1 = exG2.numAgents from by decide), hsucc1]
    simp only [Nat.sub_self]
    rw [hspec2]
    decide
  have hspec : specMM exG2 0 1 0 = evalEV exG2 2 := by
    rw [specMM, dif_neg (by simp [hterm01])]
    dsimp only
    rw [hatt0]
    simp only [List.map_cons, List.map_nil]
    rw [if_neg (show ¬ (0 + 1 = exG2.numAgents) from by decide), hsucc0, hspec1]
    decide
  refine ⟨hcode, hspec, ?_⟩
  rw [hcode, hspec]
  decide

/-- Fail-soft alpha-beta bounds: within the window the pruned value `r` is exact;
failing low it upper-bounds the true value `v`; failing high it lower-bounds it. -/
def Bnds (α β r v : EV) : Prop :=
  (r ≤ α → v ≤ r) ∧ (β ≤ r → r ≤ v) ∧ (α < r → r < β → r = v)

lemma Bnds_of_eq {α β r v : EV} (h : r = v) : Bnds α β r v :=
  ⟨fun _ => le_of_eq h.symm, fun _ => le_of_eq h, fun _ _ => h⟩

lemma mmMinLoop_le (g : Game S A) (d i : Nat) (s : S) :
    ∀ (l : List {a // a ∈ g.legalActions s i}) (v : EV), mmMinLoop g d i s l v ≤ v := by
  intro l
  induction l with
  | nil => intro v; rw [mmMinLoop]
  | cons a rest ih =>
    intro v
    rw [mmMinLoop]
    exact le_trans (ih _) (min_le_left _ _)

lemma mmMaxLoop_ge (g : Game S A) (d : Nat) (s : S) :
    ∀ (l : List {a // a ∈ g.legalActions s 0}) (v : EV), v ≤ mmMaxLoop g d s l v := by
  intro l
  induction l with
  | nil => intro v; rw [mmMaxLoop]
  | cons a rest ih =>
    intro v
    rw [mmMaxLoop]
    refine le_trans ?_ (ih _)
    split
    · exact le_of_lt (by assumption)
    · exact le_refl v

lemma abMinLoop_bounds (g : Game S A) (d i : Nat) (s : S) (α β₀ : EV)
    (hch : ∀ a ∈ g.legalActions s i, ∀ α' β', α' < β' →
      Bnds α' β' (abMin g (g.generateSuccessor s i a) d α' β' (i + 1))
        (mmMin g (g.generateSuccessor s i a) d (i + 1)))
    (hαβ₀ : α < β₀) :
    ∀ (l : List {a // a ∈ g.legalActions s i}) (vab vmm : EV),
      α < vab →
      (β₀ ≤ vab → vab ≤ vmm) →
      (α < vab → vab < β₀ → vab = vmm) →
      Bnds α β₀ (abMinLoop g d i s α l vab (min β₀ vab)) (mmMinLoop g d i s l vmm) := by
  intro l
  induction l with
  | nil =>
    intro vab vmm hαv h2 h3
    rw [abMinLoop, mmMinLoop]
    exact ⟨fun hle => absurd (lt_of_lt_of_le hαv hle) (lt_irrefl α), h2, h3⟩
  | cons a rest ih =>
    intro vab vmm hαv h2 h3
    rw [abMinLoop, mmMinLoop]
    have hαβ' : α < min β₀ vab := lt_min hαβ₀ hαv
    have hB := hch a.1 a.2 α (min β₀ vab) hαβ'
    set r := abMin g (g.generateSuccessor s i a.1) d α (min β₀ vab) (i + 1) with hr
    set M := mmMin g (g.generateSuccessor s i a.1) d (i + 1) with hM
    by_cases hc : min vab r ≤ α
    · rw [if_pos hc]
      have hrv : r < vab := by
        by_contra hge
        have : min vab r = vab := min_eq_left (not_lt.mp hge)
        rw [this] at hc
        exact absurd (lt_of_lt_of_le hαv hc) (lt_irrefl α)
      have hminr : min vab r = r := min_eq_right (le_of_lt hrv)
      have hrα : r ≤ α := by rw [hminr] at hc; exact hc
      have hMr : M ≤ r := hB.1 hrα
      refine ⟨fun _ => ?_, fun hβ => ?_, fun hα1 hα2 => ?_⟩
      · calc mmMinLoop g d i s rest (min vmm M) ≤ min vmm M := mmMinLoop_le g d i s _ _
          _ ≤ M := min_le_right _ _
          _ ≤ r := hMr
          _ = min vab r := hminr.symm
      · exact absurd (lt_of_le_of_lt hβ (lt_of_le_of_lt hc hαβ₀)) (lt_irrefl β₀)
      · exact absurd (lt_of_lt_of_le hα1 hc) (lt_irrefl α)
    · rw [if_neg hc]
      push_neg at hc
      have hv'le : min vab r ≤ vab := min_le_left _ _
      have hrw : min (min β₀ vab) (min vab r) = min β₀ (min vab r) := by
        rw [min_assoc β₀ vab (min vab r)]
        congr 1
        exact min_eq_right hv'le
      rw [hrw]
      apply ih (min vab r) (min vmm M) hc
      · intro hβ
        have hβv : β₀ ≤ vab := le_trans hβ hv'le
        have hβr : β₀ ≤ r := le_trans hβ (min_le_right _ _)
        have hminβ : min β₀ vab = β₀ := min_eq_left hβv
        have hrM : r ≤ M := hB.2.1 (by rw [hminβ]; exact hβr)
        refine le_min (le_trans hv'le (h2 hβv)) ?_
        exact le_trans (min_le_right _ _) hrM
      · intro hα' hβ'
        by_cases hcase : vab ≤ r
        · have hv' : min vab r = vab := min_eq_left hcase
          rw [hv'] at hβ' ⊢
          have hvv : vab = vmm := h3 hαv hβ'
          have hminβ : min β₀ vab = vab := min_eq_right (le_of_lt hβ')
          have hrM : r ≤ M := hB.2.1 (by rw [hminβ]; exact hcase)
          rw [← hvv]
          exact (min_eq_left (le_trans hcase hrM)).symm
        · push_neg at hcase
          have hv' : min vab r = r := min_eq_right (le_of_lt hcase)
          rw [hv'] at hα' hβ' ⊢
          have hrβ : r < min β₀ vab := lt_min hβ' hcase
          have hrM : r = M := hB.2.2 hα' hrβ
          have hvmmr : r ≤ vmm := by
            by_cases hv3 : vab < β₀
            · rw [← h3 hαv hv3]; exact le_of_lt hcase
            · exact le_trans (le_of_lt hcase) (h2 (not_lt.mp hv3))
          rw [← hrM]
          exact (min_eq_right hvmmr).symm

lemma abMaxLoop_bounds (g : Game S A) (d : Nat) (s : S) (α₀ β : EV)
    (hch : ∀ a ∈ g.legalActions s 0, ∀ α' β', α' < β' →
      Bnds α' β' (abMin g (g.generateSuccessor s 0 a) d α' β' 1)
        (mmMin g (g.generateSuccessor s 0 a) d 1))
    (hαβ : α₀ < β) :
    ∀ (l : List {a // a ∈ g.legalActions s 0}) (vab vmm : EV),
      vab < β →
      (vab ≤ α₀ → vmm ≤ vab) →
      (α₀ < vab → vab < β → vab = vmm) →
      Bnds α₀ β (abMaxLoop g d s β l vab (max α₀ vab)) (mmMaxLoop g d s l vmm) := by
  intro l
  induction l with
  | nil =>
    intro vab vmm hvβ h1 h3
    rw [abMaxLoop, mmMaxLoop]
    exact ⟨h1, fun hle => absurd (lt_of_le_of_lt hle hvβ) (lt_irrefl β), h3⟩
  | cons a rest ih =>
    intro vab vmm hvβ h1 h3
    rw [abMaxLoop, mmMaxLoop]
    have hαβ' : max α₀ vab < β := max_lt hαβ hvβ
    have hB := hch a.1 a.2 (max α₀ vab) β hαβ'
    set r := abMin g (g.generateSuccessor s 0 a.1) d (max α₀ vab) β 1 with hr
    set M := mmMin g (g.generateSuccessor s 0 a.1) d 1 with hM
    have hmm_step : (if vmm < M then M else vmm) = max vmm M := by
      split
      · exact (max_eq_right (le_of_lt (by assumption))).symm
      · exact (max_eq_left (not_lt.mp (by assumption))).symm
    rw [hmm_step]
    by_cases hc : β ≤ max vab r
    · rw [if_pos hc]
      have hrv : vab < r := by
        by_contra hge
        have : max vab r = vab := max_eq_left (not_lt.mp hge)
        rw [this] at hc
        exact absurd (lt_of_le_of_lt hc hvβ) (lt_irrefl β)
      have hmaxr : max vab r = r := max_eq_right (le_of_lt hrv)
      have hβr : β ≤ r := by rw [hmaxr] at hc; exact hc
      have hrM : r ≤ M := hB.2.1 hβr
      refine ⟨fun hle => ?_, fun _ => ?_, fun hα1 hα2 => ?_⟩
      · exact absurd (lt_of_le_of_lt (le_trans hc hle) hαβ) (lt_irrefl β)
      · calc max vab r = r := hmaxr
          _ ≤ M := hrM
          _ ≤ max vmm M := le_max_right _ _
          _ ≤ mmMaxLoop g d s rest (max vmm M) := mmMaxLoop_ge g d s _ _
      · exact absurd (lt_of_le_of_lt hc hα2) (lt_irrefl β)
    · rw [if_neg hc]
      push_neg at hc
      have hv'ge : vab ≤ max vab r := le_max_left _ _
      have hrw : max (max α₀ vab) (max vab r) = max α₀ (max vab r) := by
        rw [max_assoc α₀ vab (max vab r)]
        congr 1
        exact max_eq_right hv'ge
      rw [hrw]
      apply ih (max vab r) (max vmm M) hc
      · intro hα'
        have hαv : vab ≤ α₀ := le_trans hv'ge hα'
        have hαr : r ≤ α₀ := le_trans (le_max_right vab r) hα'
        have hmaxα : max α₀ vab = α₀ := max_eq_left hαv
        have hMr : M ≤ r := hB.1 (by rw [hmaxα]; exact hαr)
        refine max_le (le_trans (h1 hαv) hv'ge) ?_
        exact le_trans hMr (le_max_right _ _)
      · intro hα' hβ'
        by_cases hcase : r ≤ vab
        · have hv' : max vab r = vab := max_eq_left hcase
          rw [hv'] at hα' ⊢
          have hvv : vab = vmm := h3 hα' hvβ
          have hmaxα : max α₀ vab = vab := max_eq_right (le_of_lt hα')
          have hMr : M ≤ r := hB.1 (by rw [hmaxα]; exact hcase)
          rw [← hvv]
          exact (max_eq_left (le_trans hMr hcase)).symm
        · push_neg at hcase
          have hv' : max vab r = r := max_eq_right (le_of_lt hcase)
          rw [hv'] at hα' hβ' ⊢
          have hrα : max α₀ vab < r := max_lt hα' hcase
          have hrM : r = M := hB.2.2 hrα hβ'
          have hvmmr : vmm ≤ r := by
            by_cases hv3 : α₀ < vab
            · rw [← h3 hv3 hvβ]; exact le_of_lt hcase
            · exact le_trans (h1 (not_lt.mp hv3)) (le_of_lt hcase)
          rw [← hrM]
          exact (max_eq_right hvmmr).symm

lemma attach_nil_of_nil {α : Type} {l : List α} (h : l = []) : l.attach = [] := by
  subst h
  rfl

lemma abmm_min_bounds (g : Game S A) (d : Nat)
    (IHmax : ∀ (s : S) (α β : EV), α < β →
      Bnds α β (abMax g s (d - 1) α β) (mmMax g s (d - 1))) :
    ∀ (k i : Nat), g.numAgents - i ≤ k → ∀ (s : S) (α β : EV), α < β →
      Bnds α β (abMin g s d α β i) (mmMin g s d i) := by
  intro k
  induction k with
  | zero =>
    intro i hik s α β hαβ
    rw [abMin, mmMin]
    by_cases hterm : terminalNode g s d = true
    · rw [dif_pos hterm, dif_pos hterm]
      exact Bnds_of_eq rfl
    · rw [dif_neg hterm, dif_neg hterm]
      by_cases hlast : i = g.numAgents - 1
      · rw [if_pos hlast, if_pos hlast]
        exact IHmax s α β hαβ
      · rw [if_neg hlast, if_neg hlast]
        have hNle : g.numAgents ≤ i := by omega
        rw [attach_nil_of_nil (g.legalActions_ge s i hNle)]
        exact Bnds_of_eq (by rw [abMinLoop, mmMinLoop])
  | succ k ihk =>
    intro i hik s α β hαβ
    rw [abMin, mmMin]
    by_cases hterm : terminalNode g s d = true
    · rw [dif_pos hterm, dif_pos hterm]
      exact Bnds_of_eq rfl
    · rw [dif_neg hterm, dif_neg hterm]
      by_cases hlast : i = g.numAgents - 1
      · rw [if_pos hlast, if_pos hlast]
        exact IHmax s α β hαβ
      · rw [if_neg hlast, if_neg hlast]
        have hch : ∀ a ∈ g.legalActions s i, ∀ α' β', α' < β' →
            Bnds α' β' (abMin g (g.generateSuccessor s i a) d α' β' (i + 1))
              (mmMin g (g.generateSuccessor s i a) d (i + 1)) := by
          intro a ha α' β' h'
          exact ihk (i + 1) (by omega) _ α' β' h'
        have hb := abMinLoop_bounds g d i s α β hch hαβ ((g.legalActions s i).attach) ⊤ ⊤
          (lt_of_lt_of_le hαβ le_top) (fun _ => le_refl _)
          (fun _ h => absurd h not_top_lt)
        rw [show min β (⊤ : EV) = β from min_eq_left le_top] at hb
        exact hb

lemma abmm_max_bounds (g : Game S A) (d : Nat)
    (Hmin1 : ∀ (s : S) (α β : EV), α < β →
      Bnds α β (abMin g s d α β 1) (mmMin g s d 1)) :
    ∀ (s : S) (α β : EV), α < β → Bnds α β (abMax g s d α β) (mmMax g s d) := by
  intro s α β hαβ
  rw [abMax, mmMax]
  by_cases hterm : terminalNode g s d = true
  · rw [if_pos hterm, if_pos hterm]
    exact Bnds_of_eq rfl
  · rw [if_neg hterm, if_neg hterm]
    have hch : ∀ a ∈ g.legalActions s 0, ∀ α' β', α' < β' →
        Bnds α' β' (abMin g (g.generateSuccessor s 0 a) d α' β' 1)
          (mmMin g (g.generateSuccessor s 0 a) d 1) :=
      fun a _ α' β' h' => Hmin1 _ α' β' h'
    have hb := abMaxLoop_bounds g d s α β hch hαβ ((g.legalActions s 0).attach) ⊥ ⊥
      (lt_of_le_of_lt bot_le hαβ) (fun _ => le_refl _)
      (fun h _ => absurd h (not_lt_bot))
    rw [show max α (⊥ : EV) = α from max_eq_left bot_le] at hb
    exact hb

lemma abmm_bounds (g : Game S A) : ∀ d : Nat,
    (∀ (s : S) (α β : EV), α < β → Bnds α β (abMax g s d α β) (mmMax g s d))
    ∧ (∀ (i : Nat) (s : S) (α β : EV), α < β →
        Bnds α β (abMin g s d α β i) (mmMin g s d i)) := by
  intro d
  induction d with
  | zero =>
    have hterm0 : ∀ s : S, terminalNode g s 0 = true := by
      intro s
      simp [terminalNode]
    constructor
    · intro s α β _
      rw [abMax, mmMax, if_pos (hterm0 s), if_pos (hterm0 s)]
      exact Bnds_of_eq rfl
    · intro i s α β _
      rw [abMin, mmMin, dif_pos (hterm0 s), dif_pos (hterm0 s)]
      exact Bnds_of_eq rfl
  | succ n ihn =>
    have IHmax : ∀ (s : S) (α β : EV), α < β →
        Bnds α β (abMax g s (n + 1 - 1) α β) (mmMax g s (n + 1 - 1)) := by
      simpa using ihn.1
    have hminall : ∀ (i : Nat) (s : S) (α β : EV), α < β →
        Bnds α β (abMin g s (n + 1) α β i) (mmMin g s (n + 1) i) :=
      fun i s α β h =>
        abmm_min_bounds g (n + 1) IHmax (g.numAgents - i) i (le_refl _) s α β h
    exact ⟨abmm_max_bounds g (n + 1) (fun s α β h => hminall 1 s α β h), hminall⟩

lemma rootLoop_eq (g : Game S A) (rootd : Nat)
    (Hmin : ∀ (s : S) (α β : EV), α < β →
      Bnds α β (abMin g s rootd α β 1) (mmMin g s rootd 1)) (s : S) :
    ∀ (l : List A) (v : EV) (best : Option A),
      abRootLoop g rootd s l v v best = mmRootLoop g rootd s l v best := by
  intro l
  induction l with
  | nil => intro v best; rw [abRootLoop, mmRootLoop]
  | cons a rest ih =>
    intro v best
    rw [abRootLoop, mmRootLoop]
    set r := abMin g (g.generateSuccessor s 0 a) rootd v ⊤ 1 with hr
    set M := mmMin g (g.generateSuccessor s 0 a) rootd 1 with hM
    by_cases hvt : v = ⊤
    · have h1 : ¬ v < r := by rw [hvt]; exact not_top_lt
      have h2 : ¬ v < M := by rw [hvt]; exact not_top_lt
      rw [if_neg h1, if_neg h2, max_self]
      exact ih v best
    · have hvlt : v < ⊤ := lt_top_iff_ne_top.mpr hvt
      have hB := Hmin (g.generateSuccessor s 0 a) v ⊤ hvlt
      rw [← hr, ← hM] at hB
      by_cases hup : v < r
      · have hrM : r = M := by
          by_cases hrt : r = ⊤
          · have hrle : r ≤ M := hB.2.1 hrt.symm.le
            have hMt : M = ⊤ := top_le_iff.mp (hrt ▸ hrle)
            rw [hrt, hMt]
          · exact hB.2.2 hup (lt_top_iff_ne_top.mpr hrt)
        have hupM : v < M := hrM ▸ hup
        rw [if_pos hup, if_pos hupM, ← hrM, max_eq_right (le_of_lt hup)]
        exact ih r (some a)
      · have hMv : M ≤ v := le_trans (hB.1 (not_lt.mp hup)) (not_lt.mp hup)
        rw [if_neg hup, if_neg (not_lt.mpr hMv), max_self]
        exact ih v best

/-- Claim C4: the alpha-beta agent's root result (chosen action, or the evaluation
value at a terminal root) is identical to the unpruned minimax agent's on every game,
state, and tree depth — the same first-seen tie-break over the legal-action order, with
the `value >= beta` / `value <= alpha` cutoffs never changing the selection. -/
theorem C4_alphabeta_equals_minimax (g : Game S A) (s : S) (d : Nat) :
    abRoot g s d = mmRoot g s d := by
  unfold abRoot mmRoot
  by_cases hterm : terminalNode g s d = true
  · rw [if_pos hterm, if_pos hterm]
  · rw [if_neg hterm, if_neg hterm]
    have hloop := rootLoop_eq g d (fun s' α β h => (abmm_bounds g d).2 1 s' α β h) s
      (g.legalActions s 0) ⊥ none
    rw [hloop]

end PacaiMulti
